import Mathlib

/-!
Verification development for `ws_domain_export.py`, a Python CLI that queries a
domain-status websocket endpoint in batches and exports the responses to CSV.

The batch request/response engine (`query_domains`, source lines 95-141) is
embedded shallowly: the websocket environment is a script of received messages,
each tagged with its absolute arrival time and classified the way the source's
decode chain classifies it (decode failure / wrong `type` field / missing
`name` / a proper response).  `asyncio.wait_for(ws.recv(), timeout=idle_timeout)`
is modelled as: the next scripted message is received iff it arrives within
`idle_timeout` of the current clock; otherwise the wait times out, the clock
advances by `idle_timeout`, and the message (if any) stays in the stream for
the next receive call.  An exhausted script stands for a connection that stays
silent, which the source also experiences as a timeout.  The receive loop is
embedded as the full list of its intermediate states, so invariants over
"every point in time" become statements about trace membership.

The sequential helpers (`chunked`, `build_domains`, `append_csv`, and the
resume/skip logic of `main`) are embedded directly as pure functions.
-/

/-- The `data` object of a decoded `domainStatusResponse` message: the record
the source stores verbatim in `results` and later reads back in `append_csv`
via `resp.get("available")`, `resp.get("lookupType")` and `resp.get("extra")`.
`extra` is carried as its compact-JSON serialization (`none` stands for an
absent/null field). -/
structure RespData where
  available : Option Bool
  lookupType : Option String
  extra : Option String
deriving DecidableEq

/-- A received websocket message, classified exactly as the receive loop's
decode chain classifies it (source lines 128-137):
`malformed` raises `json.JSONDecodeError` in `json.loads` (line 130);
`wrongType` decodes but its `type` field is not `"domainStatusResponse"`
(line 132); `noName` has no `data`/`name` field (line 137, `name is None`);
`response name resp` carries a name string (possibly `""`, which line 137
also treats as falsy) and its payload. -/
inductive Msg where
  | malformed : Msg
  | wrongType : Msg
  | noName : Msg
  | response (name : String) (resp : RespData) : Msg
deriving DecidableEq

/-- A scripted wire event: absolute arrival time of a message, in the same
time unit as `idle_timeout`, together with the message.  Arrival times are
intended nondecreasing; the embedding keeps its clock monotone regardless. -/
abbrev Event := Nat × Msg

/-- The `results` dict of `query_domains`: a key-value list whose keys are
unique by construction (`dictInsert` removes the old binding). -/
abbrev Store := List (String × RespData)

/-- Python dict assignment `results[name] = resp` (source line 138):
last write wins; insertion order is irrelevant to every claim. -/
def dictInsert (m : Store) (k : String) (v : RespData) : Store :=
  (k, v) :: m.filter (fun p => p.1 ≠ k)

/-- The keys of the results dict, as a list. -/
def storeKeys (m : Store) : List String := m.map Prod.fst

/-- The keys of the results dict, as a finite set. -/
def keysF (m : Store) : Finset String := (m.map Prod.fst).toFinset

/-- The names carried by the well-formed, non-empty-name response messages of
a script: exactly the keys the receive loop could ever insert into `results`. -/
def respNames (events : List Event) : List String :=
  events.filterMap (fun e =>
    match e.2 with
    | Msg.response name _ => if name = "" then none else some name
    | _ => none)

/-- State of the engine at one check of the receive loop's `while pending:`
condition: current clock, unconsumed wire script, the current group's pending
set, and the accumulated results dict. -/
structure LoopState where
  now : Nat
  events : List Event
  pending : Finset String
  results : Store
deriving DecidableEq

/-- Default state, used only as the (never reachable) default of `getLastD`. -/
def dfltState : LoopState := ⟨0, [], ∅, []⟩

/-- The receive loop of `query_domains` (source lines 123-139), as the list of
its states at each `while pending:` check; the last element is the state in
which the loop exits.  One iteration: if `pending` is empty the loop exits;
otherwise `asyncio.wait_for(ws.recv(), timeout=idle_timeout)` either times out
(no scripted message arrives within `idle` of `now`: the loop breaks, the
clock having advanced by `idle`, the unarrived message left for a later
receive) or yields the next message, which is skipped on decode failure
(line 130), wrong type (line 132) or falsy name (line 137), and otherwise
stored via `results[name] = resp; pending.discard(name)` (lines 138-139). -/
def recvTrace (idle now : Nat) (pending : Finset String) (results : Store) :
    List Event → List LoopState
  | [] =>
    if pending = ∅ then [⟨now, [], pending, results⟩]
    else [⟨now, [], pending, results⟩, ⟨now + idle, [], pending, results⟩]
  | (t, m) :: rest =>
    if pending = ∅ then [⟨now, (t, m) :: rest, pending, results⟩]
    else if now + idle < t then
      [⟨now, (t, m) :: rest, pending, results⟩,
       ⟨now + idle, (t, m) :: rest, pending, results⟩]
    else
      ⟨now, (t, m) :: rest, pending, results⟩ ::
        (match m with
          | Msg.malformed => recvTrace idle (max now t) pending results rest
          | Msg.wrongType => recvTrace idle (max now t) pending results rest
          | Msg.noName => recvTrace idle (max now t) pending results rest
          | Msg.response name resp =>
            if name = "" then recvTrace idle (max now t) pending results rest
            else recvTrace idle (max now t) (pending.erase name)
              (dictInsert results name resp) rest)

/-- `chunked` (source lines 77-79): slices `items[i : i + size]` for
`i in range(0, len(items), size)`; that range enumerates the multiples
`i * size` for `i < (len(items) + size - 1) / size`.  For `size = 0` the
source's `range` raises `ValueError` (the CLI default is 50 and argparse
supplies a positive int); the model returns no groups there, and every claim
about `chunked` assumes `0 < size`. -/
def chunked (items : List String) (size : Nat) : List (List String) :=
  (List.range ((items.length + size - 1) / size)).map
    (fun i => (items.drop (i * size)).take size)

/-- Fuel-driven decimal-width helper: number of decimal digits of `n`,
computed like repeated `n //= 10`.  `numWidth` supplies `n` itself as fuel,
which always suffices. -/
def widthAux : Nat → Nat → Nat
  | 0, _ => 1
  | fuel + 1, n => if n < 10 then 1 else widthAux fuel (n / 10) + 1

/-- Number of digits of the decimal representation of `n`. -/
def numWidth (n : Nat) : Nat := widthAux n n

/-- The character of a decimal digit (`0 ≤ d ≤ 9`). -/
def digitChar (d : Nat) : Char := Char.ofNat (48 + d)

/-- The `k` least-significant decimal digits of `n`, most significant first:
`digitsFixed (k+1) n` is the digit of weight `10 ^ k` followed by the rest. -/
def digitsFixed : Nat → Nat → List Char
  | 0, _ => []
  | k + 1, n => digitChar (n / 10 ^ k) :: digitsFixed k (n % 10 ^ k)

/-- Python's `f"{n:06d}"` (source line 113): the decimal representation of
`n`, left-padded with zeros to width 6; numbers of seven or more digits keep
their full width. -/
def format06 (n : Nat) : String :=
  String.mk (digitsFixed (max 6 (numWidth n)) n)

/-- One request envelope (source lines 116-121): the `reqID` correlation id
and the `data.domains` group it carries. -/
structure Request where
  reqID : String
  domains : List String
deriving DecidableEq

/-- Everything observable about one run of `query_domains`: the requests sent
(in order), the receive-loop trace of each group (in order), and the state
after the last group, whose `results` field is the run's return value. -/
structure RunResult where
  requests : List Request
  traces : List (List LoopState)
  final : LoopState
deriving DecidableEq

/-- The per-group loop of `query_domains` (source lines 110-139): for each
group, format the correlation id from the counter (starting value passed in,
`1` at the call site), increment the counter, send the request envelope,
initialize `pending` to the group's key set, and run the receive loop; the
next group resumes from the loop's exit state (clock, unconsumed script and
accumulated results persist across groups). -/
def runBatches (idle : Nat) : List (List String) → Nat → LoopState → RunResult
  | [], _, s => ⟨[], [], s⟩
  | batch :: rest, counter, s =>
    let tr := recvTrace idle s.now batch.toFinset s.results s.events
    let r := runBatches idle rest (counter + 1) (tr.getLastD dfltState)
    ⟨⟨format06 counter, batch⟩ :: r.requests, tr :: r.traces, r.final⟩

/-- `query_domains` (source lines 95-141): chunk the domains, then process the
groups sequentially starting with counter 1, an empty results dict, clock 0
and the full wire script. -/
def query_domains (domains : List String) (batch_size idle : Nat)
    (events : List Event) : RunResult :=
  runBatches idle (chunked domains batch_size) 1 ⟨0, events, ∅, []⟩

/-- Modelled from the spec: the receive loop as claim C2 describes the idle
timer, namely that a malformed message "does not reset or count against the
idle timer's message-received criterion".  The deadline is measured from
`last`, the arrival time of the last message that counts (any successfully
decoded message, per the spec's "deadline must reset on every successfully
parsed message, including ignored ones"); a malformed message is consumed but
leaves `last` unchanged.  This is the refinement target the source loop is
compared against; the source (`recvTrace`) instead waits `idle` from every
received message, malformed ones included. -/
def recvTraceNoReset (idle last now : Nat) (pending : Finset String)
    (results : Store) : List Event → List LoopState
  | [] =>
    if pending = ∅ then [⟨now, [], pending, results⟩]
    else [⟨now, [], pending, results⟩, ⟨last + idle, [], pending, results⟩]
  | (t, m) :: rest =>
    if pending = ∅ then [⟨now, (t, m) :: rest, pending, results⟩]
    else if last + idle < t then
      [⟨now, (t, m) :: rest, pending, results⟩,
       ⟨last + idle, (t, m) :: rest, pending, results⟩]
    else
      ⟨now, (t, m) :: rest, pending, results⟩ ::
        (match m with
          | Msg.malformed => recvTraceNoReset idle last (max now t) pending results rest
          | Msg.wrongType => recvTraceNoReset idle (max last t) (max now t) pending results rest
          | Msg.noName => recvTraceNoReset idle (max last t) (max now t) pending results rest
          | Msg.response name resp =>
            if name = "" then
              recvTraceNoReset idle (max last t) (max now t) pending results rest
            else
              recvTraceNoReset idle (max last t) (max now t) (pending.erase name)
                (dictInsert results name resp) rest)

/-- Python `str.strip()` on the character list of a string (for the ASCII
whitespace the input files contain): drop leading and trailing whitespace. -/
def pyStrip (s : String) : String :=
  String.mk (((s.data.dropWhile Char.isWhitespace).reverse.dropWhile
    Char.isWhitespace).reverse)

/-- Python `str.lower()` (for the ASCII names the tool processes). -/
def pyLower (s : String) : String :=
  String.mk (s.data.map Char.toLower)

/-- `build_domains` (source lines 82-92): with `use_tlds = false`, the
stripped, lower-cased non-blank bases themselves; otherwise every
`f"{base}.{tld.lower()}"` for each stripped, lower-cased non-blank base and
each tld, in input order. -/
def build_domains (bases tlds : List String) (use_tlds : Bool) : List String :=
  if !use_tlds then
    (bases.filter (fun b => pyStrip b ≠ "")).map (fun b => pyLower (pyStrip b))
  else
    ((bases.map (fun b => pyLower (pyStrip b))).filter (fun b => b ≠ "")).flatMap
      (fun base => tlds.map (fun tld => base ++ "." ++ pyLower tld))

/-- What `main`'s per-base loop body decides for one base (source lines
215-222): skip when the expansion is empty, skip when `existing` (the resume
set loaded from the output CSV) is a superset of the expansion, and otherwise
query the expansion filtered down to the domains not in `existing`. -/
inductive BaseOutcome where
  | skipNoDomains : BaseOutcome
  | skipAllExported : BaseOutcome
  | run (queried : List String) : BaseOutcome
deriving DecidableEq

/-- The skip/filter decision of `main`'s loop body for one base
(source lines 215-222). -/
def processBase (base : String) (tlds : List String) (use_tlds : Bool)
    (existing : Finset String) : BaseOutcome :=
  let domains_all := build_domains [base] tlds use_tlds
  if domains_all = [] then BaseOutcome.skipNoDomains
  else if domains_all.all (fun d => d ∈ existing) then BaseOutcome.skipAllExported
  else BaseOutcome.run (domains_all.filter (fun d => d ∉ existing))

/-- The loop of `main` over bases (source lines 214-233): each base is
skipped or queried per `processBase`; a queried base consumes its own wire
script (one websocket session per base, `evs` supplies them positionally),
its results are appended to the output and its keys added to `existing`.
Returns all requests sent and all rows appended during this run (the run's
delta over the resume set). -/
def mainLoop (tlds : List String) (use_tlds : Bool) (batch_size idle : Nat) :
    List String → List (List Event) → Finset String → List Request × Store
  | [], _, _ => ([], [])
  | base :: rest, evs, existing =>
    match processBase base tlds use_tlds existing with
    | BaseOutcome.run queried =>
      let r := query_domains queried batch_size idle (evs.headD [])
      let rec_ := mainLoop tlds use_tlds batch_size idle rest evs.tail
        (existing ∪ keysF r.final.results)
      (r.requests ++ rec_.1, r.final.results ++ rec_.2)
    | _ => mainLoop tlds use_tlds batch_size idle rest evs.tail existing

/-- The header row of the output CSV (source line 149). -/
def headerRow : List String := ["domain", "available", "lookupType", "extra_json"]

/-- How `csv.writer` renders `resp.get("available")`: Python `None` becomes
the empty field, booleans their `str()` form. -/
def availField : Option Bool → String
  | none => ""
  | some true => "True"
  | some false => "False"

/-- `json.dumps(resp.get("extra"), separators=(",", ":"))`: the compact JSON
text carried by the record, or `"null"` for an absent/null field. -/
def extraField : Option String → String
  | none => "null"
  | some s => s

/-- One data row of `append_csv` (source lines 150-159). -/
def csvRow (domain : String) (r : RespData) : List String :=
  [domain, availField r.available, r.lookupType.getD "", extraField r.extra]

/-- String comparison used to model Python's `sorted` on the keys. -/
def strLe (a b : String) : Bool := a ≤ b

/-- `append_csv` (source lines 144-159), as the list of rows it appends: the
header exactly when the output file is absent or empty (`fileContent` is
`none` when absent, otherwise the current content), then one row per key of
`results` in sorted key order. -/
def append_csv (results : Store) (fileContent : Option String) : List (List String) :=
  (if fileContent = none ∨ fileContent = some "" then [headerRow] else []) ++
    ((storeKeys results).mergeSort strLe).map
      (fun d => csvRow d (((results.lookup d).getD ⟨none, none, none⟩)))

/-- The relation between two consecutive states of a receive loop used by
claim C10: the pending set only shrinks and loses at most one key per step,
while the key set of the results dict only grows and gains at most one key
per step. -/
def stepOk (a b : LoopState) : Prop :=
  b.pending ⊆ a.pending ∧ a.pending.card ≤ b.pending.card + 1 ∧
  keysF a.results ⊆ keysF b.results ∧ (keysF b.results).card ≤ (keysF a.results).card + 1

instance (a b : LoopState) : Decidable (stepOk a b) := by
  unfold stepOk
  infer_instance

/-! ### Basic lemmas about the store, the scripts and list plumbing -/

lemma getLastD_mem {α : Type} (l : List α) (d : α) (h : l ≠ []) :
    l.getLastD d ∈ l := by
  cases l with
  | nil => exact absurd rfl h
  | cons a as =>
    simp only [List.getLastD_cons]
    exact List.getLastD_mem_cons as a

lemma keysF_dictInsert (m : Store) (k : String) (v : RespData) :
    keysF (dictInsert m k v) = insert k (keysF m) := by
  ext a
  simp only [keysF, dictInsert, List.map_cons, List.toFinset_cons, List.mem_toFinset,
    Finset.mem_insert, List.mem_map, List.mem_filter]
  constructor
  · rintro (rfl | ⟨p, ⟨hp, _⟩, rfl⟩)
    · exact Or.inl rfl
    · exact Or.inr ⟨p, hp, rfl⟩
  · rintro (rfl | ⟨p, hp, rfl⟩)
    · exact Or.inl rfl
    · by_cases hk : p.1 = k
      · exact Or.inl hk
      · exact Or.inr ⟨p, ⟨hp, by simpa using hk⟩, rfl⟩

lemma mem_keysF_dictInsert_self (m : Store) (k : String) (v : RespData) :
    k ∈ keysF (dictInsert m k v) := by
  rw [keysF_dictInsert]; exact Finset.mem_insert_self k (keysF m)

@[simp] lemma respNames_nil : respNames [] = [] := rfl

@[simp] lemma respNames_cons_malformed (t : Nat) (rest : List Event) :
    respNames ((t, Msg.malformed) :: rest) = respNames rest := rfl

@[simp] lemma respNames_cons_wrongType (t : Nat) (rest : List Event) :
    respNames ((t, Msg.wrongType) :: rest) = respNames rest := rfl

@[simp] lemma respNames_cons_noName (t : Nat) (rest : List Event) :
    respNames ((t, Msg.noName) :: rest) = respNames rest := rfl

lemma respNames_cons_response (t : Nat) (name : String) (resp : RespData)
    (rest : List Event) :
    respNames ((t, Msg.response name resp) :: rest) =
      if name = "" then respNames rest else name :: respNames rest := by
  by_cases h : name = "" <;> simp [respNames, h]

lemma recvTrace_head (idle now : Nat) (pending : Finset String) (results : Store)
    (evs : List Event) :
    (recvTrace idle now pending results evs).head? =
      some ⟨now, evs, pending, results⟩ := by
  cases evs with
  | nil => by_cases hp : pending = ∅ <;> simp [recvTrace, hp]
  | cons e rest =>
    obtain ⟨t, m⟩ := e
    by_cases hp : pending = ∅
    · simp [recvTrace, hp]
    · by_cases ht : now + idle < t <;> simp [recvTrace, hp, ht]

lemma recvTrace_ne_nil (idle now : Nat) (pending : Finset String) (results : Store)
    (evs : List Event) : recvTrace idle now pending results evs ≠ [] := by
  intro h
  have := recvTrace_head idle now pending results evs
  rw [h] at this
  exact Option.noConfusion this

lemma recvTrace_exit_empty (idle now : Nat) (pending : Finset String)
    (results : Store) (evs : List Event) (hp : pending = ∅) :
    recvTrace idle now pending results evs = [⟨now, evs, pending, results⟩] := by
  cases evs with
  | nil => simp only [recvTrace]; rw [if_pos hp]
  | cons e rest => obtain ⟨t, m⟩ := e; simp only [recvTrace]; rw [if_pos hp]

lemma recvTrace_silence (idle now : Nat) (pending : Finset String)
    (results : Store) (hp : pending ≠ ∅) :
    recvTrace idle now pending results [] =
      [⟨now, [], pending, results⟩, ⟨now + idle, [], pending, results⟩] := by
  simp only [recvTrace]; rw [if_neg hp]

lemma recvTrace_timeout (idle now t : Nat) (m : Msg) (pending : Finset String)
    (results : Store) (rest : List Event) (hp : pending ≠ ∅)
    (ht : now + idle < t) :
    recvTrace idle now pending results ((t, m) :: rest) =
      [⟨now, (t, m) :: rest, pending, results⟩,
       ⟨now + idle, (t, m) :: rest, pending, results⟩] := by
  simp only [recvTrace]; rw [if_neg hp, if_pos ht]

lemma recvTrace_step_malformed (idle now t : Nat) (pending : Finset String)
    (results : Store) (rest : List Event) (hp : pending ≠ ∅)
    (ht : ¬now + idle < t) :
    recvTrace idle now pending results ((t, Msg.malformed) :: rest) =
      ⟨now, (t, Msg.malformed) :: rest, pending, results⟩ ::
        recvTrace idle (max now t) pending results rest := by
  simp only [recvTrace]; rw [if_neg hp, if_neg ht]

lemma recvTrace_step_wrongType (idle now t : Nat) (pending : Finset String)
    (results : Store) (rest : List Event) (hp : pending ≠ ∅)
    (ht : ¬now + idle < t) :
    recvTrace idle now pending results ((t, Msg.wrongType) :: rest) =
      ⟨now, (t, Msg.wrongType) :: rest, pending, results⟩ ::
        recvTrace idle (max now t) pending results rest := by
  simp only [recvTrace]; rw [if_neg hp, if_neg ht]

lemma recvTrace_step_noName (idle now t : Nat) (pending : Finset String)
    (results : Store) (rest : List Event) (hp : pending ≠ ∅)
    (ht : ¬now + idle < t) :
    recvTrace idle now pending results ((t, Msg.noName) :: rest) =
      ⟨now, (t, Msg.noName) :: rest, pending, results⟩ ::
        recvTrace idle (max now t) pending results rest := by
  simp only [recvTrace]; rw [if_neg hp, if_neg ht]

lemma recvTrace_step_emptyName (idle now t : Nat) (resp : RespData)
    (pending : Finset String) (results : Store) (rest : List Event)
    (hp : pending ≠ ∅) (ht : ¬now + idle < t) :
    recvTrace idle now pending results ((t, Msg.response "" resp) :: rest) =
      ⟨now, (t, Msg.response "" resp) :: rest, pending, results⟩ ::
        recvTrace idle (max now t) pending results rest := by
  simp only [recvTrace]
  rw [if_neg hp, if_neg ht]
  simp

lemma recvTrace_step_response (idle now t : Nat) (name : String) (resp : RespData)
    (pending : Finset String) (results : Store) (rest : List Event)
    (hp : pending ≠ ∅) (ht : ¬now + idle < t) (hn : name ≠ "") :
    recvTrace idle now pending results ((t, Msg.response name resp) :: rest) =
      ⟨now, (t, Msg.response name resp) :: rest, pending, results⟩ ::
        recvTrace idle (max now t) (pending.erase name)
          (dictInsert results name resp) rest := by
  simp only [recvTrace]
  rw [if_neg hp, if_neg ht]
  simp only [if_neg hn]

lemma recvTrace_mem_facts (idle : Nat) (evs : List Event) :
    ∀ (now : Nat) (pending : Finset String) (results : Store),
      ∀ x ∈ recvTrace idle now pending results evs,
        x.pending ⊆ pending ∧
        keysF results ⊆ keysF x.results ∧
        keysF x.results ⊆ keysF results ∪ (respNames evs).toFinset ∧
        pending ⊆ x.pending ∪ keysF x.results ∧
        (respNames x.events).toFinset ⊆ (respNames evs).toFinset := by
  induction evs with
  | nil =>
    intro now pending results x hx
    by_cases hp : pending = ∅
    · rw [recvTrace_exit_empty idle now pending results [] hp, List.mem_singleton] at hx
      subst hx
      exact ⟨Finset.Subset.refl _, Finset.Subset.refl _, Finset.subset_union_left,
        Finset.subset_union_left, Finset.Subset.refl _⟩
    · rw [recvTrace_silence idle now pending results hp] at hx
      simp only [List.mem_cons, List.not_mem_nil, or_false] at hx
      rcases hx with rfl | rfl <;>
        exact ⟨Finset.Subset.refl _, Finset.Subset.refl _, Finset.subset_union_left,
          Finset.subset_union_left, Finset.Subset.refl _⟩
  | cons e rest ih =>
    obtain ⟨t, m⟩ := e
    intro now pending results x hx
    by_cases hp : pending = ∅
    · rw [recvTrace_exit_empty idle now pending results _ hp, List.mem_singleton] at hx
      subst hx
      exact ⟨Finset.Subset.refl _, Finset.Subset.refl _, Finset.subset_union_left,
        Finset.subset_union_left, Finset.Subset.refl _⟩
    · by_cases ht : now + idle < t
      · rw [recvTrace_timeout idle now t m pending results rest hp ht] at hx
        simp only [List.mem_cons, List.not_mem_nil, or_false] at hx
        rcases hx with rfl | rfl <;>
          exact ⟨Finset.Subset.refl _, Finset.Subset.refl _, Finset.subset_union_left,
            Finset.subset_union_left, Finset.Subset.refl _⟩
      · cases m with
        | malformed =>
          rw [recvTrace_step_malformed idle now t pending results rest hp ht,
            List.mem_cons] at hx
          rcases hx with rfl | hx
          · exact ⟨Finset.Subset.refl _, Finset.Subset.refl _, Finset.subset_union_left,
              Finset.subset_union_left, Finset.Subset.refl _⟩
          · simpa only [respNames_cons_malformed] using ih (max now t) pending results x hx
        | wrongType =>
          rw [recvTrace_step_wrongType idle now t pending results rest hp ht,
            List.mem_cons] at hx
          rcases hx with rfl | hx
          · exact ⟨Finset.Subset.refl _, Finset.Subset.refl _, Finset.subset_union_left,
              Finset.subset_union_left, Finset.Subset.refl _⟩
          · simpa only [respNames_cons_wrongType] using ih (max now t) pending results x hx
        | noName =>
          rw [recvTrace_step_noName idle now t pending results rest hp ht,
            List.mem_cons] at hx
          rcases hx with rfl | hx
          · exact ⟨Finset.Subset.refl _, Finset.Subset.refl _, Finset.subset_union_left,
              Finset.subset_union_left, Finset.Subset.refl _⟩
          · simpa only [respNames_cons_noName] using ih (max now t) pending results x hx
        | response name resp =>
          by_cases hn : name = ""
          · subst hn
            rw [recvTrace_step_emptyName idle now t resp pending results rest hp ht,
              List.mem_cons] at hx
            rcases hx with rfl | hx
            · exact ⟨Finset.Subset.refl _, Finset.Subset.refl _, Finset.subset_union_left,
                Finset.subset_union_left, Finset.Subset.refl _⟩
            · simpa only [respNames_cons_response, if_pos rfl] using
                ih (max now t) pending results x hx
          · rw [recvTrace_step_response idle now t name resp pending results rest hp ht hn,
              List.mem_cons] at hx
            have hnames : respNames ((t, Msg.response name resp) :: rest) =
                name :: respNames rest := by
              rw [respNames_cons_response]; exact if_neg hn
            rcases hx with rfl | hx
            · exact ⟨Finset.Subset.refl _, Finset.Subset.refl _, Finset.subset_union_left,
                Finset.subset_union_left, Finset.Subset.refl _⟩
            · obtain ⟨ha, hb, hc, hd, he⟩ :=
                ih (max now t) (pending.erase name) (dictInsert results name resp) x hx
              rw [keysF_dictInsert] at hb hc
              refine ⟨ha.trans (Finset.erase_subset _ _),
                (Finset.subset_insert _ _).trans hb, ?_, ?_, ?_⟩
              · rw [hnames]
                refine hc.trans ?_
                intro a hmem
                simp only [Finset.mem_union, Finset.mem_insert, List.toFinset_cons,
                  List.mem_toFinset] at hmem ⊢
                tauto
              · intro a hmem
                by_cases han : a = name
                · subst han
                  exact Finset.mem_union_right _
                    (hb (Finset.mem_insert_self a (keysF results)))
                · exact hd (Finset.mem_erase.mpr ⟨han, hmem⟩)
              · rw [hnames]
                refine he.trans ?_
                simp only [List.toFinset_cons]
                exact Finset.subset_insert _ _

lemma card_le_card_erase_add_one (s : Finset String) (a : String) :
    s.card ≤ (s.erase a).card + 1 := by
  by_cases h : a ∈ s
  · rw [Finset.card_erase_of_mem h]
    have h1 : 1 ≤ s.card := Finset.card_pos.mpr ⟨a, h⟩
    omega
  · rw [Finset.erase_eq_of_not_mem h]
    exact Nat.le_succ _

lemma stepOk_same (a b : LoopState) (hp : a.pending = b.pending)
    (hr : a.results = b.results) : stepOk a b := by
  unfold stepOk
  rw [hp, hr]
  exact ⟨Finset.Subset.refl _, Nat.le_succ _, Finset.Subset.refl _, Nat.le_succ _⟩

lemma recvTrace_chain (idle : Nat) (evs : List Event) :
    ∀ (now : Nat) (pending : Finset String) (results : Store),
      List.Chain' stepOk (recvTrace idle now pending results evs) := by
  induction evs with
  | nil =>
    intro now pending results
    by_cases hp : pending = ∅
    · rw [recvTrace_exit_empty idle now pending results [] hp]
      exact List.chain'_singleton _
    · rw [recvTrace_silence idle now pending results hp]
      exact List.chain'_pair.mpr (stepOk_same _ _ rfl rfl)
  | cons e rest ih =>
    obtain ⟨t, m⟩ := e
    intro now pending results
    by_cases hp : pending = ∅
    · rw [recvTrace_exit_empty idle now pending results _ hp]
      exact List.chain'_singleton _
    · by_cases ht : now + idle < t
      · rw [recvTrace_timeout idle now t m pending results rest hp ht]
        exact List.chain'_pair.mpr (stepOk_same _ _ rfl rfl)
      · cases m with
        | malformed =>
          rw [recvTrace_step_malformed idle now t pending results rest hp ht]
          refine List.chain'_cons'.mpr ⟨?_, ih (max now t) pending results⟩
          intro y hy
          rw [recvTrace_head] at hy
          cases hy
          exact stepOk_same _ _ rfl rfl
        | wrongType =>
          rw [recvTrace_step_wrongType idle now t pending results rest hp ht]
          refine List.chain'_cons'.mpr ⟨?_, ih (max now t) pending results⟩
          intro y hy
          rw [recvTrace_head] at hy
          cases hy
          exact stepOk_same _ _ rfl rfl
        | noName =>
          rw [recvTrace_step_noName idle now t pending results rest hp ht]
          refine List.chain'_cons'.mpr ⟨?_, ih (max now t) pending results⟩
          intro y hy
          rw [recvTrace_head] at hy
          cases hy
          exact stepOk_same _ _ rfl rfl
        | response name resp =>
          by_cases hn : name = ""
          · subst hn
            rw [recvTrace_step_emptyName idle now t resp pending results rest hp ht]
            refine List.chain'_cons'.mpr ⟨?_, ih (max now t) pending results⟩
            intro y hy
            rw [recvTrace_head] at hy
            cases hy
            exact stepOk_same _ _ rfl rfl
          · rw [recvTrace_step_response idle now t name resp pending results rest hp ht hn]
            refine List.chain'_cons'.mpr
              ⟨?_, ih (max now t) (pending.erase name) (dictInsert results name resp)⟩
            intro y hy
            rw [recvTrace_head] at hy
            cases hy
            refine ⟨Finset.erase_subset _ _, card_le_card_erase_add_one _ _, ?_, ?_⟩
            · rw [keysF_dictInsert]
              exact Finset.subset_insert _ _
            · rw [keysF_dictInsert]
              exact Finset.card_insert_le _ _

/-! ### Lemmas about the per-group loop of `query_domains` -/

lemma runBatches_traces_length (idle : Nat) (bs : List (List String)) :
    ∀ (c : Nat) (s : LoopState), (runBatches idle bs c s).traces.length = bs.length := by
  induction bs with
  | nil => intro c s; rfl
  | cons b rest ih =>
    intro c s
    simp only [runBatches, List.length_cons]
    rw [ih]

lemma runBatches_requests_domains (idle : Nat) (bs : List (List String)) :
    ∀ (c : Nat) (s : LoopState),
      (runBatches idle bs c s).requests.map Request.domains = bs := by
  induction bs with
  | nil => intro c s; rfl
  | cons b rest ih =>
    intro c s
    simp only [runBatches, List.map_cons]
    rw [ih]

lemma runBatches_requests_ids (idle : Nat) (bs : List (List String)) :
    ∀ (c : Nat) (s : LoopState),
      (runBatches idle bs c s).requests.map Request.reqID =
        (List.range bs.length).map (fun i => format06 (c + i)) := by
  induction bs with
  | nil => intro c s; rfl
  | cons b rest ih =>
    intro c s
    simp only [runBatches, List.map_cons, List.length_cons, List.range_succ_eq_map,
      List.map_map]
    rw [ih]
    refine congrArg₂ List.cons (by rw [Nat.add_zero]) ?_
    refine List.map_congr_left ?_
    intro i _
    simp only [Function.comp_apply]
    refine congrArg format06 ?_
    omega

lemma runBatches_final_keys (idle : Nat) (bs : List (List String)) :
    ∀ (c : Nat) (s : LoopState),
      keysF (runBatches idle bs c s).final.results ⊆
        keysF s.results ∪ (respNames s.events).toFinset := by
  induction bs with
  | nil => intro c s; exact Finset.subset_union_left
  | cons b rest ih =>
    intro c s
    simp only [runBatches]
    set tr := recvTrace idle s.now b.toFinset s.results s.events with htr
    have hmem : tr.getLastD dfltState ∈ tr :=
      getLastD_mem tr dfltState (htr ▸ recvTrace_ne_nil idle s.now b.toFinset s.results s.events)
    obtain ⟨-, -, hc, -, he⟩ := recvTrace_mem_facts idle s.events s.now b.toFinset
      s.results (tr.getLastD dfltState) hmem
    refine (ih (c + 1) (tr.getLastD dfltState)).trans ?_
    intro a ha
    rcases Finset.mem_union.mp ha with h1 | h1
    · rcases Finset.mem_union.mp (hc h1) with h2 | h2
      · exact Finset.mem_union_left _ h2
      · exact Finset.mem_union_right _ h2
    · exact Finset.mem_union_right _ (he h1)

lemma runBatches_traces_shape (idle : Nat) (bs : List (List String)) :
    ∀ (c : Nat) (s : LoopState), ∀ tr ∈ (runBatches idle bs c s).traces,
      ∃ b ∈ bs, ∃ now results events,
        tr = recvTrace idle now b.toFinset results events := by
  induction bs with
  | nil => intro c s tr htr; exact absurd htr (List.not_mem_nil _)
  | cons b rest ih =>
    intro c s tr htr
    simp only [runBatches, List.mem_cons] at htr
    rcases htr with rfl | htr
    · exact ⟨b, List.mem_cons_self b rest, s.now, s.results, s.events, rfl⟩
    · obtain ⟨b', hb', rest'⟩ := ih (c + 1) _ tr htr
      exact ⟨b', List.mem_cons_of_mem b hb', rest'⟩

lemma runBatches_invariant (idle : Nat) (target : Finset String) (bs : List (List String)) :
    ∀ (c : Nat) (s : LoopState),
      bs.flatten.toFinset ∪ keysF s.results = target →
      (respNames s.events).toFinset ⊆ target →
      (∀ tr ∈ (runBatches idle bs c s).traces,
        (tr.getLastD dfltState).pending ⊆ keysF (tr.getLastD dfltState).results) →
      (∀ i, i < (runBatches idle bs c s).traces.length →
        ∀ x ∈ (runBatches idle bs c s).traces.getD i [],
          (bs.drop (i + 1)).flatten.toFinset ∪ x.pending ∪ keysF x.results = target)
      ∧ keysF (runBatches idle bs c s).final.results = target := by
  induction bs with
  | nil =>
    intro c s hJoin hresp hlast
    constructor
    · intro i hi x hx
      simp only [runBatches, List.length_nil] at hi
      exact absurd hi (Nat.not_lt_zero i)
    · simp only [runBatches]
      simpa using hJoin
  | cons b rest ih =>
    intro c s hJoin hresp hlast
    simp only [runBatches] at hlast ⊢
    have hne : recvTrace idle s.now b.toFinset s.results s.events ≠ [] :=
      recvTrace_ne_nil idle s.now b.toFinset s.results s.events
    have hs1mem : (recvTrace idle s.now b.toFinset s.results s.events).getLastD dfltState
        ∈ recvTrace idle s.now b.toFinset s.results s.events :=
      getLastD_mem _ dfltState hne
    obtain ⟨ha1, hb1, hc1, hd1, he1⟩ :=
      recvTrace_mem_facts idle s.events s.now b.toFinset s.results _ hs1mem
    have hmemJoin : ∀ a : String,
        a ∈ target ↔ (a ∈ b ∨ a ∈ rest.flatten ∨ a ∈ keysF s.results) := by
      intro a
      rw [← hJoin]
      simp [List.flatten_cons, or_assoc]
    have hlast_head :
        ((recvTrace idle s.now b.toFinset s.results s.events).getLastD dfltState).pending ⊆
          keysF ((recvTrace idle s.now b.toFinset s.results s.events).getLastD
            dfltState).results :=
      hlast _ (List.mem_cons_self _ _)
    have hbT : b.toFinset ⊆ target := by
      intro a ha
      exact (hmemJoin a).mpr (Or.inl (List.mem_toFinset.mp ha))
    have hrestT : rest.flatten.toFinset ⊆ target := by
      intro a ha
      exact (hmemJoin a).mpr (Or.inr (Or.inl (List.mem_toFinset.mp ha)))
    have hresT : keysF s.results ⊆ target := by
      intro a ha
      exact (hmemJoin a).mpr (Or.inr (Or.inr ha))
    have hrespT : (respNames s.events).toFinset ⊆ target := hresp
    have hC1T : keysF ((recvTrace idle s.now b.toFinset s.results s.events).getLastD
        dfltState).results ⊆ target := by
      intro a ha
      rcases Finset.mem_union.mp (hc1 ha) with h | h
      · exact hresT h
      · exact hrespT h
    have hJoin1 : rest.flatten.toFinset ∪
        keysF ((recvTrace idle s.now b.toFinset s.results s.events).getLastD
          dfltState).results = target := by
      apply Finset.Subset.antisymm
      · exact Finset.union_subset hrestT hC1T
      · intro a ha
        rcases (hmemJoin a).mp ha with h | h | h
        · have h2 := hd1 (List.mem_toFinset.mpr h)
          rcases Finset.mem_union.mp h2 with h3 | h3
          · exact Finset.mem_union_right _ (hlast_head h3)
          · exact Finset.mem_union_right _ h3
        · exact Finset.mem_union_left _ (List.mem_toFinset.mpr h)
        · exact Finset.mem_union_right _ (hb1 h)
    obtain ⟨ihA, ihB⟩ := ih (c + 1)
      ((recvTrace idle s.now b.toFinset s.results s.events).getLastD dfltState)
      hJoin1 (he1.trans hrespT)
      (fun tr htr => hlast tr (List.mem_cons_of_mem _ htr))
    constructor
    · intro i hi x hx
      cases i with
      | zero =>
        simp only [List.getD_cons_zero] at hx
        obtain ⟨hax, hbx, hcx, hdx, hex⟩ :=
          recvTrace_mem_facts idle s.events s.now b.toFinset s.results x hx
        simp only [List.drop_succ_cons, List.drop_zero]
        apply Finset.Subset.antisymm
        · refine Finset.union_subset (Finset.union_subset hrestT ?_) ?_
          · exact (hax.trans hbT)
          · intro a ha
            rcases Finset.mem_union.mp (hcx ha) with h | h
            · exact hresT h
            · exact hrespT h
        · intro a ha
          rcases (hmemJoin a).mp ha with h | h | h
          · have h2 := hdx (List.mem_toFinset.mpr h)
            rcases Finset.mem_union.mp h2 with h3 | h3
            · exact Finset.mem_union_left _ (Finset.mem_union_right _ h3)
            · exact Finset.mem_union_right _ h3
          · exact Finset.mem_union_left _
              (Finset.mem_union_left _ (List.mem_toFinset.mpr h))
          · exact Finset.mem_union_right _ (hbx h)
      | succ j =>
        simp only [List.getD_cons_succ] at hx
        simp only [List.length_cons, Nat.succ_lt_succ_iff] at hi
        simp only [List.drop_succ_cons]
        exact ihA j hi x hx
    · exact ihB

/-! ### Lemmas about `chunked` -/

lemma chunked_nil (size : Nat) : chunked [] size = [] := by
  unfold chunked
  cases size with
  | zero => simp
  | succ k =>
    have h : (0 + (k + 1) - 1) / (k + 1) = 0 := Nat.div_eq_of_lt (by omega)
    simp only [List.length_nil, h, List.range_zero, List.map_nil]

lemma chunked_length (items : List String) (size : Nat) :
    (chunked items size).length = (items.length + size - 1) / size := by
  simp [chunked]

lemma chunked_cons (l : List String) (size : Nat) (h : 0 < size) (hl : l ≠ []) :
    chunked l size = l.take size :: chunked (l.drop size) size := by
  have hn : 1 ≤ l.length := List.length_pos.mpr hl
  have hcount : (l.length + size - 1) / size = ((l.length - size) + size - 1) / size + 1 := by
    have h1 : l.length + size - 1 = (l.length - 1) + size := by omega
    rw [h1, Nat.add_div_right _ h]
    by_cases hc : l.length ≤ size
    · have h2 : l.length - size = 0 := by omega
      rw [h2]
      have h3 : (l.length - 1) / size = 0 := Nat.div_eq_of_lt (by omega)
      have h4 : (0 + size - 1) / size = 0 := Nat.div_eq_of_lt (by omega)
      rw [h3, h4]
    · have h2 : (l.length - size) + size - 1 = l.length - 1 := by omega
      rw [h2]
  unfold chunked
  rw [List.length_drop, hcount, List.range_succ_eq_map, List.map_cons, List.map_map]
  refine congrArg₂ List.cons ?_ ?_
  · simp
  · refine List.map_congr_left ?_
    intro i _
    simp only [Function.comp_apply]
    rw [List.drop_drop]
    have harith : (i + 1) * size = size + i * size := by ring
    rw [harith]

lemma chunked_flatten (size : Nat) (h : 0 < size) (l : List String) :
    (chunked l size).flatten = l := by
  have key : ∀ n (l : List String), l.length = n → (chunked l size).flatten = l := by
    intro n
    induction n using Nat.strong_induction_on with
    | _ n ih =>
      intro l hlen
      cases l with
      | nil => rw [chunked_nil]; rfl
      | cons a as =>
        rw [chunked_cons (a :: as) size h (by simp), List.flatten_cons]
        have hd : ((a :: as).drop size).length < n := by
          rw [List.length_drop]
          subst hlen
          simp only [List.length_cons]
          omega
        rw [ih _ hd _ rfl]
        exact List.take_append_drop size (a :: as)
  exact key _ l rfl

lemma chunked_mem_length_le (items : List String) (size : Nat) :
    ∀ g ∈ chunked items size, g.length ≤ size := by
  intro g hg
  simp only [chunked, List.mem_map, List.mem_range] at hg
  obtain ⟨i, -, rfl⟩ := hg
  exact List.length_take_le _ _

lemma chunked_disjoint (items : List String) (size : Nat) (h : 0 < size)
    (hnd : items.Nodup) : (chunked items size).Pairwise List.Disjoint := by
  have hflat : (chunked items size).flatten.Nodup := by
    rw [chunked_flatten size h items]
    exact hnd
  exact (List.nodup_flatten.mp hflat).2

/-! ### Lemmas about the correlation-id format -/

lemma lt_pow_widthAux : ∀ (fuel n : Nat), n ≤ fuel → n < 10 ^ widthAux fuel n := by
  intro fuel
  induction fuel with
  | zero =>
    intro n hn
    have : n = 0 := Nat.le_zero.mp hn
    subst this
    simp [widthAux]
  | succ fuel ih =>
    intro n hn
    by_cases h10 : n < 10
    · simp only [widthAux, if_pos h10]
      simpa using h10
    · simp only [widthAux, if_neg h10]
      have hdiv : n / 10 ≤ fuel := by
        have : n / 10 < n := Nat.div_lt_self (by omega) (by omega)
        omega
      have := ih (n / 10) hdiv
      have hmod := Nat.div_add_mod n 10
      have hmodlt : n % 10 < 10 := Nat.mod_lt n (by omega)
      calc n = 10 * (n / 10) + n % 10 := (Nat.div_add_mod n 10).symm
        _ < 10 * (n / 10) + 10 := by omega
        _ = 10 * (n / 10 + 1) := by ring
        _ ≤ 10 * (10 ^ widthAux fuel (n / 10)) := by
            have : n / 10 + 1 ≤ 10 ^ widthAux fuel (n / 10) := this
            exact Nat.mul_le_mul_left 10 this
        _ = 10 ^ (widthAux fuel (n / 10) + 1) := by ring

lemma widthAux_le : ∀ (fuel n k : Nat), n ≤ fuel → n < 10 ^ k → 1 ≤ k →
    widthAux fuel n ≤ k := by
  intro fuel
  induction fuel with
  | zero => intro n k _ _ hk; simpa [widthAux] using hk
  | succ fuel ih =>
    intro n k hn hnk hk
    by_cases h10 : n < 10
    · simpa [widthAux, h10] using hk
    · simp only [widthAux, if_neg h10]
      have hk2 : 2 ≤ k := by
        by_contra hc
        have hk1 : k = 1 := by omega
        subst hk1
        simp at hnk
        omega
      have hdivfuel : n / 10 ≤ fuel := by
        have : n / 10 < n := Nat.div_lt_self (by omega) (by omega)
        omega
      have hdivpow : n / 10 < 10 ^ (k - 1) := by
        have hpos : 0 < (10 : Nat) := by omega
        rw [Nat.div_lt_iff_lt_mul hpos]
        have : 10 ^ (k - 1) * 10 = 10 ^ k := by
          rw [← Nat.pow_succ]
          congr 1
          omega
        omega
      have := ih (n / 10) (k - 1) hdivfuel hdivpow (by omega)
      omega

lemma lt_pow_numWidth (n : Nat) : n < 10 ^ numWidth n :=
  lt_pow_widthAux n n (le_refl n)

lemma numWidth_le_of_lt_pow (n k : Nat) (h : n < 10 ^ k) (hk : 1 ≤ k) :
    numWidth n ≤ k :=
  widthAux_le n n k (le_refl n) h hk

lemma digitsFixed_length : ∀ (k n : Nat), (digitsFixed k n).length = k := by
  intro k
  induction k with
  | zero => intro n; rfl
  | succ k ih => intro n; simp [digitsFixed, ih]

lemma digitChar_lt (a b : Nat) (ha : a ≤ 9) (hb : b ≤ 9) (h : a < b) :
    digitChar a < digitChar b := by
  interval_cases a <;> interval_cases b <;> revert h <;> decide

lemma char_list_lt_irrefl : ∀ l : List Char, ¬l < l := by
  intro l
  induction l with
  | nil => intro h; cases h
  | cons a as ih =>
    intro h
    cases h with
    | cons h3 => exact ih h3
    | rel hlt => exact absurd hlt (lt_irrefl a)

lemma digitsFixed_lt : ∀ (k n m : Nat), n < m → m < 10 ^ k →
    digitsFixed k n < digitsFixed k m := by
  intro k
  induction k with
  | zero =>
    intro n m hnm hm
    simp at hm
    omega
  | succ k ih =>
    intro n m hnm hm
    have hpow : 0 < 10 ^ k := Nat.pos_pow_of_pos k (by omega)
    have hmd : m / 10 ^ k ≤ 9 := by
      have hlt10 : m / 10 ^ k < 10 := by
        rw [Nat.div_lt_iff_lt_mul hpow]
        calc m < 10 ^ (k + 1) := hm
          _ = 10 * 10 ^ k := by ring
      omega
    have hnd : n / 10 ^ k ≤ m / 10 ^ k := Nat.div_le_div_right (Nat.le_of_lt hnm)
    simp only [digitsFixed]
    rcases Nat.lt_or_ge (n / 10 ^ k) (m / 10 ^ k) with hlt | hge
    · exact List.Lex.rel (digitChar_lt _ _ (le_trans (Nat.le_of_lt hlt) hmd) hmd hlt)
    · have heq : n / 10 ^ k = m / 10 ^ k := le_antisymm hnd hge
      rw [heq]
      refine List.Lex.cons ?_
      have hmodlt : n % 10 ^ k < m % 10 ^ k := by
        have h1 := Nat.div_add_mod n (10 ^ k)
        have h2 := Nat.div_add_mod m (10 ^ k)
        rw [heq] at h1
        omega
      exact ih (n % 10 ^ k) (m % 10 ^ k) hmodlt (Nat.mod_lt m hpow)

lemma String_mk_lt (l1 l2 : List Char) : String.mk l1 < String.mk l2 ↔ l1 < l2 := by
  rw [String.lt_iff_toList_lt]
  exact Iff.rfl

lemma format06_length (n : Nat) : (format06 n).length = max 6 (numWidth n) := by
  have h : (format06 n).length = (digitsFixed (max 6 (numWidth n)) n).length := rfl
  rw [h, digitsFixed_length]

lemma numWidth_le_six (n : Nat) (h : n ≤ 999999) : numWidth n ≤ 6 := by
  refine numWidth_le_of_lt_pow n 6 ?_ (by omega)
  have h10 : (10 : Nat) ^ 6 = 1000000 := by norm_num
  omega

lemma format06_lt (a b : Nat) (hab : a < b) (hb : b ≤ 999999) :
    format06 a < format06 b := by
  have hwa : max 6 (numWidth a) = 6 := Nat.max_eq_left (numWidth_le_six a (by omega))
  have hwb : max 6 (numWidth b) = 6 := Nat.max_eq_left (numWidth_le_six b hb)
  have hb6 : b < 10 ^ 6 := by
    have h10 : (10 : Nat) ^ 6 = 1000000 := by norm_num
    omega
  simp only [format06, hwa, hwb]
  exact (String_mk_lt _ _).mpr (digitsFixed_lt 6 a b hab hb6)

lemma format06_injective : Function.Injective format06 := by
  have key : ∀ x y : Nat, x < y → format06 x ≠ format06 y := by
    intro x y hxy hxyEq
    have hd : digitsFixed (max 6 (numWidth x)) x = digitsFixed (max 6 (numWidth y)) y :=
      congrArg String.data hxyEq
    have hlen := congrArg List.length hd
    rw [digitsFixed_length, digitsFixed_length] at hlen
    have hy : y < 10 ^ max 6 (numWidth y) :=
      lt_of_lt_of_le (lt_pow_numWidth y)
        (Nat.pow_le_pow_right (by omega) (le_max_right _ _))
    have hlt := digitsFixed_lt (max 6 (numWidth y)) x y hxy hy
    rw [hlen] at hd
    rw [hd] at hlt
    exact char_list_lt_irrefl _ hlt
  intro a b hEq
  by_contra hne
  rcases lt_trichotomy a b with h | h | h
  · exact key a b h hEq
  · exact hne h
  · exact key b a h hEq.symm

lemma mem_respNames (events : List Event) (k : String) :
    k ∈ respNames events ↔
      ∃ e ∈ events, ∃ resp, e.2 = Msg.response k resp ∧ k ≠ "" := by
  simp only [respNames, List.mem_filterMap]
  constructor
  · rintro ⟨e, he, hse⟩
    obtain ⟨t, m⟩ := e
    cases m with
    | malformed => simp at hse
    | wrongType => simp at hse
    | noName => simp at hse
    | response name resp =>
      by_cases hn : name = ""
      · simp [hn] at hse
      · simp only [if_neg hn] at hse
        have hk : name = k := Option.some.inj hse
        subst hk
        exact ⟨(t, Msg.response name resp), he, resp, rfl, hn⟩
  · rintro ⟨e, he, resp, hm, hk⟩
    refine ⟨e, he, ?_⟩
    rw [hm]
    simp [hk]

lemma csvRow_ne_header (d : String) (r : RespData) : csvRow d r ≠ headerRow := by
  intro h
  have h2 : availField r.available = "available" := by
    have h3 := congrArg (fun l => l.getD 1 "") h
    simpa [csvRow, headerRow] using h3
  cases hb : r.available with
  | none => rw [hb] at h2; exact absurd h2 (by decide)
  | some b => cases b <;> (rw [hb] at h2; exact absurd h2 (by decide))

/-! ### Claim theorems -/

/-- C7: for every input key list and positive `batchSize`, `chunked` yields
`ceil(n / batchSize)` contiguous groups preserving input order (their
concatenation is the input list itself), each group has size at most
`batchSize`, the union of the groups' keys equals the input set, and, for
deduplicated input, no key occurs in two different groups. -/
theorem C7_chunk_partition (l : List String) (size : Nat) (h : 0 < size) :
    (chunked l size).length = (l.length + size - 1) / size ∧
    (∀ g ∈ chunked l size, g.length ≤ size) ∧
    (chunked l size).flatten = l ∧
    (chunked l size).flatten.toFinset = l.toFinset ∧
    (l.Nodup → (chunked l size).Pairwise List.Disjoint) := by
  refine ⟨chunked_length l size, chunked_mem_length_le l size,
    chunked_flatten size h l, ?_, chunked_disjoint l size h⟩
  rw [chunked_flatten size h l]

/-- Witness for C7 at the spec's own scenario: three keys, batch size two. -/
theorem C7_chunk_partition_witness :
    (0 < 2) ∧
    ((chunked ["a.com", "b.com", "c.com"] 2).length =
        (["a.com", "b.com", "c.com"].length + 2 - 1) / 2 ∧
      (∀ g ∈ chunked ["a.com", "b.com", "c.com"] 2, g.length ≤ 2) ∧
      (chunked ["a.com", "b.com", "c.com"] 2).flatten = ["a.com", "b.com", "c.com"] ∧
      (chunked ["a.com", "b.com", "c.com"] 2).flatten.toFinset =
        ["a.com", "b.com", "c.com"].toFinset ∧
      (["a.com", "b.com", "c.com"].Nodup →
        (chunked ["a.com", "b.com", "c.com"] 2).Pairwise List.Disjoint)) :=
  ⟨by decide, C7_chunk_partition ["a.com", "b.com", "c.com"] 2 (by decide)⟩

/-- C3: (1) once every key of a group has received a well-formed response the
receive loop exits immediately — the loop state where `pending` is empty is
final, with no further receive and no idle wait; (2) an idle timeout is
recovered locally: no matter how groups end, every group's request envelope is
still sent (the run is a total function, so a timeout never surfaces as a run
failure); (3) a key for which no well-formed response ever arrives anywhere in
the run's script is absent from the resulting ResultStore, so a group that
times out without responses contributes nothing. -/
theorem C3_idle_timeout_recovery :
    (∀ (idle now : Nat) (pending : Finset String) (results : Store)
        (evs : List Event), pending = ∅ →
      recvTrace idle now pending results evs = [⟨now, evs, pending, results⟩]) ∧
    (∀ (domains : List String) (batch_size idle : Nat) (events : List Event),
      (query_domains domains batch_size idle events).requests.map Request.domains =
        chunked domains batch_size) ∧
    (∀ (domains : List String) (batch_size idle : Nat) (events : List Event)
        (k : String),
      (∀ e ∈ events, ∀ name resp, e.2 = Msg.response name resp → name ≠ k) →
      k ∉ keysF (query_domains domains batch_size idle events).final.results) := by
  refine ⟨?_, ?_, ?_⟩
  · intro idle now pending results evs hp
    exact recvTrace_exit_empty idle now pending results evs hp
  · intro domains batch_size idle events
    unfold query_domains
    exact runBatches_requests_domains idle (chunked domains batch_size) 1 _
  · intro domains batch_size idle events k hk hmem
    unfold query_domains at hmem
    have hsub := runBatches_final_keys idle (chunked domains batch_size) 1
      ⟨0, events, ∅, []⟩ hmem
    rcases Finset.mem_union.mp hsub with h | h
    · simp [keysF] at h
    · rw [List.mem_toFinset, mem_respNames] at h
      obtain ⟨e, he, resp, hm, -⟩ := h
      exact hk e he k resp hm rfl

/-- Witness for C3 on concrete runs. -/
theorem C3_idle_timeout_recovery_witness :
    recvTrace 5 0 (∅ : Finset String) [] [] = [⟨0, [], ∅, []⟩] ∧
    (query_domains ["a.com"] 1 5 []).requests.map Request.domains =
      chunked ["a.com"] 1 ∧
    "c.com" ∉ keysF (query_domains ["a.com"] 1 5 []).final.results :=
  ⟨C3_idle_timeout_recovery.1 5 0 ∅ [] [] rfl,
   C3_idle_timeout_recovery.2.1 ["a.com"] 1 5 [],
   C3_idle_timeout_recovery.2.2 ["a.com"] 1 5 [] "c.com"
     (by intro e he; exact absurd he (List.not_mem_nil e))⟩

/-- C10: throughout each group's receive loop, the pending set stays inside
that group's initial key set, and between consecutive loop states the pending
set only shrinks (losing at most one key per processed message) while the key
set of the ResultStore only grows (gaining at most one key per processed
message, never losing one). -/
theorem C10_monotone_receive_loop (domains : List String) (batch_size idle : Nat)
    (events : List Event) :
    ∀ tr ∈ (query_domains domains batch_size idle events).traces,
      (∃ b ∈ chunked domains batch_size, ∀ x ∈ tr, x.pending ⊆ b.toFinset) ∧
      List.Chain' stepOk tr := by
  intro tr htr
  unfold query_domains at htr
  obtain ⟨b, hb, now, results, evs, rfl⟩ :=
    runBatches_traces_shape idle (chunked domains batch_size) 1 _ tr htr
  exact ⟨⟨b, hb, fun x hx => (recvTrace_mem_facts idle evs now b.toFinset results x hx).1⟩,
    recvTrace_chain idle evs now b.toFinset results⟩

/-- Witness for C10 on a concrete one-group run. -/
theorem C10_monotone_receive_loop_witness :
    (∃ b ∈ chunked ["a.com"] 1,
      ∀ x ∈ [(⟨0, [(0, Msg.response "a.com" ⟨some true, some "whois", none⟩)],
                {"a.com"}, []⟩ : LoopState),
             ⟨0, [], ∅, [("a.com", ⟨some true, some "whois", none⟩)]⟩],
        x.pending ⊆ b.toFinset) ∧
    List.Chain' stepOk
      [(⟨0, [(0, Msg.response "a.com" ⟨some true, some "whois", none⟩)],
          {"a.com"}, []⟩ : LoopState),
       ⟨0, [], ∅, [("a.com", ⟨some true, some "whois", none⟩)]⟩] :=
  C10_monotone_receive_loop ["a.com"] 1 5
    [(0, Msg.response "a.com" ⟨some true, some "whois", none⟩)] _ (by decide)

/-- C9: the rows handed to the persistence layer are deterministic: the data
rows are exactly one row per ResultStore key, listed in sorted (alphabetical)
key order, and the header row is emitted if and only if the output file is
absent or empty. -/
theorem C9_csv_handoff (results : Store) (fileContent : Option String) :
    ((append_csv results fileContent).head? = some headerRow ↔
      (fileContent = none ∨ fileContent = some "")) ∧
    List.Sorted (· ≤ ·)
      (((append_csv results fileContent).drop
          (if fileContent = none ∨ fileContent = some "" then 1 else 0)).map
        (fun row => row.headD "")) ∧
    List.Perm
      (((append_csv results fileContent).drop
          (if fileContent = none ∨ fileContent = some "" then 1 else 0)).map
        (fun row => row.headD ""))
      (storeKeys results) := by
  have hrows : (append_csv results fileContent).drop
      (if fileContent = none ∨ fileContent = some "" then 1 else 0) =
      ((storeKeys results).mergeSort strLe).map
        (fun d => csvRow d ((results.lookup d).getD ⟨none, none, none⟩)) := by
    by_cases hc : fileContent = none ∨ fileContent = some ""
    · simp [append_csv, hc]
    · simp [append_csv, hc]
  have hkeys : (((storeKeys results).mergeSort strLe).map
      (fun d => csvRow d ((results.lookup d).getD ⟨none, none, none⟩))).map
      (fun row => row.headD "") = (storeKeys results).mergeSort strLe := by
    rw [List.map_map]
    have hid : ∀ d ∈ (storeKeys results).mergeSort strLe,
        ((fun row => List.headD row "") ∘
          (fun d => csvRow d ((results.lookup d).getD ⟨none, none, none⟩))) d = d := by
      intro d _
      rfl
    rw [List.map_congr_left hid]
    simp
  have htrans : ∀ a b c : String, strLe a b = true → strLe b c = true →
      strLe a c = true := by
    intro a b c h1 h2
    exact decide_eq_true (le_trans (of_decide_eq_true h1) (of_decide_eq_true h2))
  have htotal : ∀ a b : String, (strLe a b || strLe b a) = true := by
    intro a b
    rcases le_total a b with h | h
    · rw [Bool.or_eq_true]
      exact Or.inl (decide_eq_true h)
    · rw [Bool.or_eq_true]
      exact Or.inr (decide_eq_true h)
  refine ⟨?_, ?_, ?_⟩
  · by_cases hc : fileContent = none ∨ fileContent = some ""
    · simp [append_csv, hc]
    · simp only [append_csv, if_neg hc, List.nil_append]
      refine iff_of_false ?_ hc
      intro h
      cases hsort : (storeKeys results).mergeSort strLe with
      | nil => rw [hsort] at h; simp at h
      | cons d ds =>
        rw [hsort] at h
        simp only [List.map_cons, List.head?_cons, Option.some.injEq] at h
        exact csvRow_ne_header d _ h
  · rw [hrows, hkeys]
    have hp := List.sorted_mergeSort htrans htotal (storeKeys results)
    exact hp.imp (fun h => of_decide_eq_true h)
  · rw [hrows, hkeys]
    exact List.mergeSort_perm (storeKeys results) strLe

/-- C8: if every domain in a base's expansion is already in the resume set
loaded from the output file, `main` skips the base entirely: re-running with
such a resume set sends zero requests and appends zero rows (an empty delta
ResultStore). -/
theorem C8_resume_idempotent (bases tlds : List String) (use_tlds : Bool)
    (existing : Finset String) (batch_size idle : Nat) (evs : List (List Event))
    (h : ∀ b ∈ bases, ∀ d ∈ build_domains [b] tlds use_tlds, d ∈ existing) :
    mainLoop tlds use_tlds batch_size idle bases evs existing = ([], []) := by
  induction bases generalizing evs with
  | nil => rfl
  | cons b rest ih =>
    have hb := h b (List.mem_cons_self b rest)
    have hrest : ∀ b' ∈ rest, ∀ d ∈ build_domains [b'] tlds use_tlds,
        d ∈ existing := fun b' hb' => h b' (List.mem_cons_of_mem b hb')
    by_cases hd : build_domains [b] tlds use_tlds = []
    · have hproc : processBase b tlds use_tlds existing =
          BaseOutcome.skipNoDomains := by
        simp [processBase, hd]
      simp only [mainLoop, hproc]
      exact ih evs.tail hrest
    · have hall : (build_domains [b] tlds use_tlds).all
          (fun d => d ∈ existing) = true :=
        List.all_eq_true.mpr (fun d hd2 => decide_eq_true (hb d hd2))
      have hproc : processBase b tlds use_tlds existing =
          BaseOutcome.skipAllExported := by
        simp only [processBase, if_neg hd]
        rw [if_pos hall]
      simp only [mainLoop, hproc]
      exact ih evs.tail hrest

/-- Witness for C8: the expansion of base "Foo" over tld "com" is already in
the resume set, so the run is a no-op. -/
theorem C8_resume_idempotent_witness :
    (∀ b ∈ ["Foo"], ∀ d ∈ build_domains [b] ["com"] true,
      d ∈ ({"foo.com"} : Finset String)) ∧
    mainLoop ["com"] true 50 5 ["Foo"] [[]] {"foo.com"} = ([], []) :=
  ⟨by decide, C8_resume_idempotent ["Foo"] ["com"] true {"foo.com"} 50 5 [[]]
    (by decide)⟩

/-- C2 counterexample: the claim says a malformed message "is not" what resets
the idle timer.  Script: a malformed message arrives 3 units into the group, a
well-formed response for the sole pending key arrives 3 units later (6 units
after the group started), with idle-timeout 5.  The source loop (`recvTrace`)
waits a fresh idle-timeout from every received message, malformed included, so
it receives the response (6 ≤ 3 + 5) and resolves the key.  Under the claim's
semantics (`recvTraceNoReset`, deadline measured from the last successfully
decoded message) the group would instead time out at 5 and abandon the key.
The two runs differ, so the source does reset the idle timer on a malformed
message. -/
theorem C2_counterexample :
    (((recvTrace 5 0 {"a.com"} []
        [(3, Msg.malformed),
         (6, Msg.response "a.com" ⟨some true, some "whois", none⟩)]).getLastD
        dfltState).pending = (∅ : Finset String) ∧
      ((recvTrace 5 0 {"a.com"} []
        [(3, Msg.malformed),
         (6, Msg.response "a.com" ⟨some true, some "whois", none⟩)]).getLastD
        dfltState).results =
        [("a.com", ⟨some true, some "whois", none⟩)]) ∧
    (((recvTraceNoReset 5 0 0 {"a.com"} []
        [(3, Msg.malformed),
         (6, Msg.response "a.com" ⟨some true, some "whois", none⟩)]).getLastD
        dfltState).pending = {"a.com"} ∧
      ((recvTraceNoReset 5 0 0 {"a.com"} []
        [(3, Msg.malformed),
         (6, Msg.response "a.com" ⟨some true, some "whois", none⟩)]).getLastD
        dfltState).results = []) := by
  decide

/-- C2 amended: a malformed message received mid-group is silently skipped —
no key is removed from the pending set, nothing is added to the ResultStore,
and the loop continues rather than terminating — but it does reset the idle
timer: the loop resumes from the malformed message's arrival time, so the next
receive waits a full idle-timeout from that message. -/
theorem C2_amended_malformed_skip (idle now t : Nat) (pending : Finset String)
    (results : Store) (rest : List Event) (hp : pending ≠ ∅)
    (ht : ¬now + idle < t) :
    recvTrace idle now pending results ((t, Msg.malformed) :: rest) =
      ⟨now, (t, Msg.malformed) :: rest, pending, results⟩ ::
        recvTrace idle (max now t) pending results rest ∧
    (recvTrace idle (max now t) pending results rest).head? =
      some ⟨max now t, rest, pending, results⟩ :=
  ⟨recvTrace_step_malformed idle now t pending results rest hp ht,
   recvTrace_head idle (max now t) pending results rest⟩

/-- Witness for the amended C2 at a concrete mid-group malformed message. -/
theorem C2_amended_malformed_skip_witness :
    recvTrace 5 0 {"a.com"} [] [(3, Msg.malformed)] =
      ⟨0, [(3, Msg.malformed)], {"a.com"}, []⟩ ::
        recvTrace 5 (max 0 3) {"a.com"} [] [] ∧
    (recvTrace 5 (max 0 3) {"a.com"} [] []).head? =
      some ⟨max 0 3, [], {"a.com"}, []⟩ :=
  C2_amended_malformed_skip 5 0 3 {"a.com"} [] [] (by decide) (by decide)

/-- C4 counterexample: a well-formed response whose key (`"b.org"`) is not in
the current pending set (`pending = the singleton "a.com"`) does not leave the
ResultStore unchanged: the source stores it anyway (line 138 runs before the
pending check would matter, and `pending.discard` is the only pending-guarded
effect).  After processing, the store holds `"b.org"` while the pending set is
untouched. -/
theorem C4_counterexample :
    ((recvTrace 5 0 {"a.com"} []
        [(0, Msg.response "b.org" ⟨some false, some "whois", none⟩)]).getLastD
      dfltState).results =
      [("b.org", ⟨some false, some "whois", none⟩)] ∧
    ((recvTrace 5 0 {"a.com"} []
        [(0, Msg.response "b.org" ⟨some false, some "whois", none⟩)]).getLastD
      dfltState).pending = {"a.com"} := by
  decide

/-- C4 amended: a well-formed response whose key is not in the current group's
pending set is processed without error and leaves the pending set (and the
rest of the loop control) unchanged, but it is not a no-op on the ResultStore:
the record is inserted under the response's key. -/
theorem C4_amended_unsolicited_response (idle now t : Nat) (name : String)
    (resp : RespData) (pending : Finset String) (results : Store)
    (rest : List Event) (hp : pending ≠ ∅) (ht : ¬now + idle < t)
    (hn : name ≠ "") (hnp : name ∉ pending) :
    recvTrace idle now pending results ((t, Msg.response name resp) :: rest) =
      ⟨now, (t, Msg.response name resp) :: rest, pending, results⟩ ::
        recvTrace idle (max now t) pending (dictInsert results name resp) rest ∧
    name ∈ keysF (dictInsert results name resp) := by
  constructor
  · rw [recvTrace_step_response idle now t name resp pending results rest hp ht hn,
      Finset.erase_eq_of_not_mem hnp]
  · exact mem_keysF_dictInsert_self results name resp

/-- Witness for the amended C4 at a concrete unsolicited response. -/
theorem C4_amended_unsolicited_response_witness :
    recvTrace 5 0 {"a.com"} []
        [(0, Msg.response "b.org" ⟨some false, some "whois", none⟩)] =
      ⟨0, [(0, Msg.response "b.org" ⟨some false, some "whois", none⟩)],
        {"a.com"}, []⟩ ::
        recvTrace 5 (max 0 0) {"a.com"}
          (dictInsert [] "b.org" ⟨some false, some "whois", none⟩) [] ∧
    "b.org" ∈ keysF (dictInsert [] "b.org" ⟨some false, some "whois", none⟩) :=
  C4_amended_unsolicited_response 5 0 0 "b.org" ⟨some false, some "whois", none⟩
    {"a.com"} [] [] (by decide) (by decide) (by decide) (by decide)

/-- C6 counterexample: the claim says the record is keyed by the lower-cased
key.  The source stores `results[name] = resp` with the name exactly as
received and applies no lower-casing: a response carrying `"A.com"` is stored
under `"A.com"`, not under its lower-cased form `"a.com"`. -/
theorem C6_counterexample :
    storeKeys ((recvTrace 5 0 {"a.com"} []
        [(0, Msg.response "A.com" ⟨some true, some "whois", none⟩)]).getLastD
      dfltState).results = ["A.com"] ∧
    pyLower "A.com" = "a.com" ∧
    "a.com" ∉ storeKeys ((recvTrace 5 0 {"a.com"} []
        [(0, Msg.response "A.com" ⟨some true, some "whois", none⟩)]).getLastD
      dfltState).results := by
  decide

/-- C6 amended: for every decoded response of the expected type carrying a
non-empty key, the record is inserted into the ResultStore keyed by the key
exactly as received from the response (no lower-casing and no renormalization
against the original QueryKey casing — the key set gains exactly the received
name), and the key is removed from the pending set if present, removal of an
absent key being a no-op rather than an error. -/
theorem C6_amended_response_insertion (idle now t : Nat) (name : String)
    (resp : RespData) (pending : Finset String) (results : Store)
    (rest : List Event) (hp : pending ≠ ∅) (ht : ¬now + idle < t)
    (hn : name ≠ "") :
    recvTrace idle now pending results ((t, Msg.response name resp) :: rest) =
      ⟨now, (t, Msg.response name resp) :: rest, pending, results⟩ ::
        recvTrace idle (max now t) (pending.erase name)
          (dictInsert results name resp) rest ∧
    keysF (dictInsert results name resp) = insert name (keysF results) ∧
    (name ∉ pending → pending.erase name = pending) :=
  ⟨recvTrace_step_response idle now t name resp pending results rest hp ht hn,
   keysF_dictInsert results name resp,
   fun h => Finset.erase_eq_of_not_mem h⟩

/-- Witness for the amended C6 at a concrete mixed-case response key. -/
theorem C6_amended_response_insertion_witness :
    recvTrace 5 0 {"a.com"} []
        [(0, Msg.response "A.com" ⟨some true, some "whois", none⟩)] =
      ⟨0, [(0, Msg.response "A.com" ⟨some true, some "whois", none⟩)],
        {"a.com"}, []⟩ ::
        recvTrace 5 (max 0 0) (({"a.com"} : Finset String).erase "A.com")
          (dictInsert [] "A.com" ⟨some true, some "whois", none⟩) [] ∧
    keysF (dictInsert [] "A.com" ⟨some true, some "whois", none⟩) =
      insert "A.com" (keysF []) ∧
    ("A.com" ∉ ({"a.com"} : Finset String) →
      ({"a.com"} : Finset String).erase "A.com" = {"a.com"}) :=
  C6_amended_response_insertion 5 0 0 "A.com" ⟨some true, some "whois", none⟩
    {"a.com"} [] [] (by decide) (by decide) (by decide)

/-- C5 counterexample: the claim says every correlation id of a run is a
6-digit zero-padded string.  In a run of a million single-key groups the
counter reaches 1000000 and `f"{1000000:06d}"` is the seven-character
`"1000000"` (the format pads to a minimum width and does not truncate), so
that run's ids are not all 6-digit (nor all lexicographically increasing,
since `"1000000" < "999999"` as strings). -/
theorem C5_counterexample :
    ∃ r ∈ (query_domains (List.replicate 1000000 "a.com") 1 5 []).requests,
      r.reqID.length ≠ 6 := by
  unfold query_domains
  have hlen : (chunked (List.replicate 1000000 "a.com") 1).length = 1000000 := by
    rw [chunked_length, List.length_replicate]
  have hids := runBatches_requests_ids 5
    (chunked (List.replicate 1000000 "a.com") 1) 1 ⟨0, [], ∅, []⟩
  rw [hlen] at hids
  have hmem : format06 1000000 ∈
      (List.range 1000000).map (fun i => format06 (1 + i)) := by
    rw [List.mem_map]
    refine ⟨999999, ?_, by norm_num⟩
    rw [List.mem_range]
    omega
  rw [← hids, List.mem_map] at hmem
  obtain ⟨r, hr, hreq⟩ := hmem
  refine ⟨r, hr, ?_⟩
  have hq : r.reqID = format06 1000000 := hreq
  rw [hq, format06_length]
  have h7 : numWidth 1000000 = 7 := by decide
  rw [h7]
  decide

/-- C5 amended: across one run the correlation ids are exactly the zero-padded
decimal counter values starting at 1 (`"000001"` first), one per group, and
they are unique per run (the format never repeats); as long as the run has at
most 999999 groups they are moreover all 6-digit strings and strictly
increasing in string order.  (With a million or more groups the id outgrows
six digits.) -/
theorem C5_amended_correlation_ids (domains : List String)
    (batch_size idle : Nat) (events : List Event) :
    (query_domains domains batch_size idle events).requests.map Request.reqID =
      (List.range (chunked domains batch_size).length).map
        (fun i => format06 (1 + i)) ∧
    ((query_domains domains batch_size idle events).requests.map
      Request.reqID).Nodup ∧
    ((chunked domains batch_size).length ≤ 999999 →
      (∀ s ∈ (query_domains domains batch_size idle events).requests.map
        Request.reqID, s.length = 6) ∧
      ((query_domains domains batch_size idle events).requests.map
        Request.reqID).Pairwise (· < ·)) := by
  have hids : (query_domains domains batch_size idle events).requests.map
      Request.reqID =
      (List.range (chunked domains batch_size).length).map
        (fun i => format06 (1 + i)) := by
    unfold query_domains
    exact runBatches_requests_ids idle (chunked domains batch_size) 1 ⟨0, events, ∅, []⟩
  have hinj : Function.Injective (fun i : Nat => format06 (1 + i)) := by
    intro a b hab
    have := format06_injective hab
    omega
  refine ⟨hids, ?_, ?_⟩
  · rw [hids]
    exact (List.nodup_range _).map hinj
  · intro hN
    constructor
    · intro s hs
      rw [hids, List.mem_map] at hs
      obtain ⟨i, hi, rfl⟩ := hs
      rw [List.mem_range] at hi
      rw [format06_length, Nat.max_eq_left (numWidth_le_six (1 + i) (by omega))]
    · rw [hids]
      rw [List.pairwise_iff_getElem]
      intro i j hi hj hij
      simp only [List.getElem_map, List.getElem_range]
      have hjN : j < (chunked domains batch_size).length := by
        simpa using hj
      exact format06_lt (1 + i) (1 + j) (by omega) (by omega)

/-- Witness for the amended C5 on a two-group run: ids "000001", "000002". -/
theorem C5_amended_correlation_ids_witness :
    (query_domains ["a.com", "b.com"] 1 5 []).requests.map Request.reqID =
      (List.range (chunked ["a.com", "b.com"] 1).length).map
        (fun i => format06 (1 + i)) ∧
    ((query_domains ["a.com", "b.com"] 1 5 []).requests.map Request.reqID).Nodup ∧
    (chunked ["a.com", "b.com"] 1).length ≤ 999999 ∧
    (∀ s ∈ (query_domains ["a.com", "b.com"] 1 5 []).requests.map Request.reqID,
      s.length = 6) ∧
    ((query_domains ["a.com", "b.com"] 1 5 []).requests.map Request.reqID).Pairwise
      (· < ·) := by
  have h := C5_amended_correlation_ids ["a.com", "b.com"] 1 5 []
  have hN : (chunked ["a.com", "b.com"] 1).length ≤ 999999 := by decide
  exact ⟨h.1, h.2.1, hN, (h.2.2 hN).1, (h.2.2 hN).2⟩

/-- C1 counterexample: run one group containing the single key `"a.com"` with
a silent connection (no message ever arrives).  The idle timeout elapses, the
group's pending set is abandoned, and the run ends with no batch in flight and
an empty ResultStore: at the run's final point the union of in-flight pending
sets and store keys is `∅`, not the deduplicated input set — the input key was
lost, so the claimed invariant does not hold at every point of every run. -/
theorem C1_counterexample :
    keysF (query_domains ["a.com"] 1 5 []).final.results = (∅ : Finset String) ∧
    (["a.com"] : List String).toFinset = {"a.com"} ∧
    (∅ : Finset String) ≠ {"a.com"} := by
  decide

/-- C1 amended: the conservation invariant holds under the two provisos the
counterexamples force: every well-formed response name must belong to the
input key set (otherwise the store gains an outside key), and no idle timeout
may abandon a pending key that has not already reached the store (otherwise a
key is lost).  Then at every loop state of every group, the keys of the not
yet dispatched groups, plus the current pending set, plus the ResultStore keys
are exactly the deduplicated input set, and at the run's end the ResultStore
keys alone equal the input set. -/
theorem C1_amended_conservation (domains : List String) (batch_size idle : Nat)
    (events : List Event) (h0 : 0 < batch_size)
    (h1 : ∀ e ∈ events, ∀ name resp, e.2 = Msg.response name resp → name ≠ "" →
      name ∈ domains)
    (h2 : ∀ tr ∈ (query_domains domains batch_size idle events).traces,
      (tr.getLastD dfltState).pending ⊆ keysF (tr.getLastD dfltState).results) :
    (∀ i, i < (query_domains domains batch_size idle events).traces.length →
      ∀ x ∈ (query_domains domains batch_size idle events).traces.getD i [],
        ((chunked domains batch_size).drop (i + 1)).flatten.toFinset ∪ x.pending ∪
          keysF x.results = domains.toFinset) ∧
    keysF (query_domains domains batch_size idle events).final.results =
      domains.toFinset := by
  unfold query_domains at h2 ⊢
  have hresp : (respNames events).toFinset ⊆ domains.toFinset := by
    intro a ha
    rw [List.mem_toFinset] at ha ⊢
    rw [mem_respNames] at ha
    obtain ⟨e, he, resp, hm, hne⟩ := ha
    exact h1 e he a resp hm hne
  have hJoin : (chunked domains batch_size).flatten.toFinset ∪ keysF [] =
      domains.toFinset := by
    rw [chunked_flatten batch_size h0 domains]
    simp [keysF]
  exact runBatches_invariant idle domains.toFinset (chunked domains batch_size) 1
    ⟨0, events, ∅, []⟩ hJoin hresp h2

/-- Witness for the amended C1: two single-key groups, both answered in time;
the run ends with the ResultStore keys equal to the input set. -/
theorem C1_amended_conservation_witness :
    (0 < 1) ∧
    (∀ e ∈ ([(0, Msg.response "a.com" ⟨some true, some "whois", none⟩),
             (1, Msg.response "b.com" ⟨some false, some "whois", none⟩)] :
        List Event),
      ∀ name resp, e.2 = Msg.response name resp → name ≠ "" →
        name ∈ ["a.com", "b.com"]) ∧
    (∀ tr ∈ (query_domains ["a.com", "b.com"] 1 5
        [(0, Msg.response "a.com" ⟨some true, some "whois", none⟩),
         (1, Msg.response "b.com" ⟨some false, some "whois", none⟩)]).traces,
      (tr.getLastD dfltState).pending ⊆ keysF (tr.getLastD dfltState).results) ∧
    keysF (query_domains ["a.com", "b.com"] 1 5
        [(0, Msg.response "a.com" ⟨some true, some "whois", none⟩),
         (1, Msg.response "b.com" ⟨some false, some "whois", none⟩)]).final.results =
      (["a.com", "b.com"] : List String).toFinset := by
  have hev : ∀ e ∈ ([(0, Msg.response "a.com" ⟨some true, some "whois", none⟩),
      (1, Msg.response "b.com" ⟨some false, some "whois", none⟩)] : List Event),
      ∀ name resp, e.2 = Msg.response name resp → name ≠ "" →
        name ∈ ["a.com", "b.com"] := by
    intro e he name resp hm hne
    simp only [List.mem_cons, List.not_mem_nil, or_false] at he
    rcases he with rfl | rfl
    · simp only [Msg.response.injEq] at hm
      obtain ⟨h1, -⟩ := hm
      subst h1
      simp
    · simp only [Msg.response.injEq] at hm
      obtain ⟨h1, -⟩ := hm
      subst h1
      simp
  have hlast : ∀ tr ∈ (query_domains ["a.com", "b.com"] 1 5
      [(0, Msg.response "a.com" ⟨some true, some "whois", none⟩),
       (1, Msg.response "b.com" ⟨some false, some "whois", none⟩)]).traces,
      (tr.getLastD dfltState).pending ⊆ keysF (tr.getLastD dfltState).results := by
    decide
  exact ⟨by decide, hev, hlast,
    (C1_amended_conservation ["a.com", "b.com"] 1 5
      [(0, Msg.response "a.com" ⟨some true, some "whois", none⟩),
       (1, Msg.response "b.com" ⟨some false, some "whois", none⟩)]
      (by decide) hev hlast).2⟩
